import Mathlib

/-!
Verification of the PIK encoder/decoder core (pik.cc, noise.cc, padded_bytes.cc)
against its natural-language specification.  The C++ functions are shallowly
embedded: float arithmetic is modelled by exact rationals, images and buffers by
lists, and external collaborators (the butteraugli comparator, the bitstream
encoder, the scaled-conjugate-gradient optimizer) by explicit oracle arguments.
-/

namespace PikSpec

/-! ### FindBestQuantization: best-distance bookkeeping (pik.cc)

Each control-loop iteration either skips the comparison (`SetQuantField`
reported no change, modelled by `none`) or compares the reconstruction and
obtains a butteraugli distance `d` (modelled by `some d`).  The retained best
distance starts at `1000.0f` and is updated by
`if (d <= best) best = max(d, butteraugli_target)`.
-/

/-- One iteration of the best-distance update in `FindBestQuantization`
(pik.cc lines 262-267): on a compared iteration with distance `d`,
if `d ≤ best` the retained best becomes `max d target` (the clamp to the
target distance); otherwise `best` is kept.  `none` models an iteration
where `SetQuantField` reported no change, so no comparison happened. -/
def bestStep (target : ℚ) (best : ℚ) (od : Option ℚ) : ℚ :=
  match od with
  | none => best
  | some d => if d ≤ best then max d target else best

/-- The best distance retained at exit of the `FindBestQuantization` loop,
starting from the initial value `1000.0f`, given the per-iteration
comparison outcomes `ds`. -/
def finalBest (target : ℚ) (ds : List (Option ℚ)) : ℚ :=
  ds.foldl (bestStep target) 1000

/-! ### FindBestQuantization: iteration-indexed tables (pik.cc) -/

/-- The seven-element initializer of `kPow` in `FindBestQuantization`
(pik.cc lines 293-301). -/
def kPowVals : List ℚ :=
  [0.99905005931122937, 1.0027778288237166, 0.74286297793691547,
   0.85172198919496955, 0, 0, 0]

/-- Total embedding of the read `kPow[i]`: the array has exactly 7 elements,
so an index `i ≥ 7` falls in the out-of-range branch (`none`). -/
def kPowT (i : ℕ) : Option ℚ :=
  if i < kPowVals.length then some (kPowVals.getD i 0) else none

/-- The initializer list of `kMargins[100]` (pik.cc line 268); the remaining
93 entries are zero-initialized by the C++ array initializer. -/
def kMarginsInit : List ℤ := [0, 0, 1, 2, 1, 0, 0]

/-- Total embedding of the read `kMargins[i]`: the array has 100 elements,
entries past the initializer being zero; an index `i ≥ 100` falls in the
out-of-range branch (`none`). -/
def kMarginsT (i : ℕ) : Option ℤ :=
  if i < 100 then some (kMarginsInit.getD i 0) else none

/-! ### PaddedBytes (padded_bytes.cc) -/

/-- Buffer state of a `PaddedBytes`: logical size `size_`, padded capacity
`padded_size_`, and the backing bytes (one list entry per allocated byte). -/
structure PaddedBytes where
  size : ℕ
  padded : ℕ
  data : List ℕ
deriving DecidableEq, Repr

/-- `PaddedBytes::PaddedSize`: `(size + 7) & ~7`, i.e. `size` rounded up to
a multiple of 8. -/
def PaddedSize (size : ℕ) : ℕ := 8 * ((size + 7) / 8)

/-- `PaddedBytes::resize` (padded_bytes.cc lines 14-30): if the new padded
size fits in the current capacity, only the logical size changes; otherwise a
new buffer is allocated, the first `size_` (old logical size) bytes are
copied (`memcpy`), and the tail up to the new padded size is zeroed
(`memset`). -/
def PaddedBytes.resize (pb : PaddedBytes) (size : ℕ) : PaddedBytes :=
  let newPaddedSize := PaddedSize size
  if newPaddedSize ≤ pb.padded then
    { pb with size := size }
  else
    { size := size, padded := newPaddedSize,
      data := pb.data.take pb.size ++ List.replicate (newPaddedSize - pb.size) 0 }

/-- A freshly constructed `PaddedBytes`: empty, no allocation. -/
def PaddedBytes.initial : PaddedBytes := ⟨0, 0, []⟩

/-- The state after a sequence of `resize` calls on a fresh `PaddedBytes`. -/
def runResizes (l : List ℕ) : PaddedBytes :=
  l.foldl PaddedBytes.resize PaddedBytes.initial

/-- Well-formedness of a `PaddedBytes` reachable by `resize` calls alone:
capacity is a multiple of 8 and at least the logical size, the backing store
has exactly `padded` bytes, and (since only `resize` ever wrote to it) every
byte is zero. -/
def PBInv (pb : PaddedBytes) : Prop :=
  pb.padded % 8 = 0 ∧ pb.size ≤ pb.padded ∧ pb.data.length = pb.padded ∧
    ∀ b ∈ pb.data, b = 0

theorem paddedSize_ge (s : ℕ) : s ≤ PaddedSize s := by
  unfold PaddedSize; omega

theorem paddedSize_mod (s : ℕ) : PaddedSize s % 8 = 0 := by
  unfold PaddedSize; omega

theorem pbinv_initial : PBInv PaddedBytes.initial := by
  refine ⟨rfl, le_refl 0, rfl, ?_⟩
  intro b hb
  simp [PaddedBytes.initial] at hb

theorem pbinv_resize (pb : PaddedBytes) (s : ℕ) (h : PBInv pb) :
    PBInv (pb.resize s) := by
  obtain ⟨h8, hle, hlen, hzero⟩ := h
  unfold PaddedBytes.resize
  by_cases hc : PaddedSize s ≤ pb.padded
  · simp only [hc, if_pos]
    exact ⟨h8, le_trans (paddedSize_ge s) hc, hlen, hzero⟩
  · simp only [hc, if_neg, not_false_iff]
    refine ⟨paddedSize_mod s, paddedSize_ge s, ?_, ?_⟩
    · have hps : pb.padded < PaddedSize s := by omega
      simp only [List.length_append, List.length_take, List.length_replicate, hlen]
      omega
    · intro b hb
      rcases List.mem_append.mp hb with hmem | hmem
      · exact hzero b (List.mem_of_mem_take hmem)
      · exact List.eq_of_mem_replicate hmem

theorem pbinv_foldl (l : List ℕ) (pb : PaddedBytes) (h : PBInv pb) :
    PBInv (l.foldl PaddedBytes.resize pb) := by
  induction l generalizing pb with
  | nil => exact h
  | cons hd tl ih => exact ih _ (pbinv_resize pb hd h)

theorem pbinv_run (l : List ℕ) : PBInv (runResizes l) :=
  pbinv_foldl l PaddedBytes.initial pbinv_initial

theorem resize_preserves (pb : PaddedBytes) (s : ℕ)
    (hwf : pb.size ≤ pb.data.length) (i : ℕ) (hi : i < pb.size) :
    (pb.resize s).data.get? i = pb.data.get? i := by
  unfold PaddedBytes.resize
  by_cases hc : PaddedSize s ≤ pb.padded
  · simp [hc]
  · simp only [hc, if_neg, not_false_iff]
    have hlt : i < (pb.data.take pb.size).length := by
      rw [List.length_take]; omega
    rw [List.get?_append hlt, List.get?_take hi]

theorem resize_grow_zeros (pb : PaddedBytes) (s : ℕ) (h : PBInv pb)
    (j : ℕ) (hj1 : pb.size ≤ j) (hj2 : j < (pb.resize s).padded) :
    (pb.resize s).data.get? j = some 0 := by
  obtain ⟨h8, hle, hlen, hzero⟩ := h
  unfold PaddedBytes.resize at hj2 ⊢
  by_cases hc : PaddedSize s ≤ pb.padded
  · simp only [hc, if_pos] at hj2 ⊢
    have hjlen : j < pb.data.length := by omega
    rw [List.get?_eq_get hjlen]
    exact congrArg some (hzero _ (pb.data.get_mem _ _))
  · simp only [hc, if_neg, not_false_iff] at hj2 ⊢
    have hlen2 : (pb.data.take pb.size).length = pb.size := by
      rw [List.length_take]; omega
    rw [List.get?_append_right (by omega), hlen2]
    have hrep : j - pb.size < (List.replicate (PaddedSize s - pb.size) (0 : ℕ)).length := by
      rw [List.length_replicate]; omega
    rw [List.get?_eq_get hrep]
    exact congrArg some (List.eq_of_mem_replicate (List.get_mem _ _ _))

/-- **C9.** Along every sequence of `PaddedBytes::resize` calls starting from a
fresh buffer, the padded capacity is a multiple of 8 and at least the logical
size; a further `resize` preserves every byte below the old logical size; and
after a `resize` to a larger logical size, every byte between the old logical
size and the new padded capacity is zero. -/
theorem padded_bytes_resize_ok (l : List ℕ) (s : ℕ) :
    ((runResizes l).padded % 8 = 0 ∧ (runResizes l).size ≤ (runResizes l).padded) ∧
    (∀ i, i < (runResizes l).size →
      ((runResizes l).resize s).data.get? i = (runResizes l).data.get? i) ∧
    ((runResizes l).size < s →
      ∀ j, (runResizes l).size ≤ j → j < ((runResizes l).resize s).padded →
        ((runResizes l).resize s).data.get? j = some 0) := by
  have hinv := pbinv_run l
  obtain ⟨h8, hle, hlen, hzero⟩ := hinv
  refine ⟨⟨h8, hle⟩, ?_, ?_⟩
  · intro i hi
    exact resize_preserves _ s (by omega) i hi
  · intro _ j hj1 hj2
    exact resize_grow_zeros _ s ⟨h8, hle, hlen, hzero⟩ j hj1 hj2

/-- Witness for `padded_bytes_resize_ok` at the concrete run `resize 3; resize 5`:
the invariant holds and the byte at index 4 (between the old logical size 3 and
the padded capacity 8) is zero. -/
theorem padded_bytes_resize_ok_witness :
    ((runResizes [3]).padded % 8 = 0 ∧ (runResizes [3]).size ≤ (runResizes [3]).padded) ∧
    ((runResizes [3]).resize 5).data.get? 4 = some 0 :=
  ⟨(padded_bytes_resize_ok [3] 5).1,
   (padded_bytes_resize_ok [3] 5).2.2 (by decide) 4 (by decide) (by decide)⟩

/-! ### C1: monotone-commit bookkeeping theorems -/

theorem bestFold_le_max (target : ℚ) (ds : List (Option ℚ)) :
    ∀ b : ℚ, ds.foldl (bestStep target) b ≤ max b target := by
  induction ds with
  | nil => intro b; simp
  | cons hd tl ih =>
    intro b
    match hd with
    | none => simpa [bestStep] using ih b
    | some d =>
      simp only [List.foldl_cons, bestStep]
      by_cases hdb : d ≤ b
      · simp only [hdb, if_pos]
        calc tl.foldl (bestStep target) (max d target)
            ≤ max (max d target) target := ih _
          _ ≤ max b target := by
              apply max_le (max_le ?_ ?_) ?_
              · exact le_max_of_le_left (le_trans hdb (le_refl b))
              · exact le_max_right _ _
              · exact le_max_right _ _
      · simp only [hdb, if_neg, not_false_iff]
        exact ih b

theorem bestFold_mem (target : ℚ) (ds : List (Option ℚ)) :
    ∀ (b d : ℚ), some d ∈ ds → ds.foldl (bestStep target) b ≤ max d target := by
  induction ds with
  | nil => intro b d h; simp at h
  | cons hd tl ih =>
    intro b d hmem
    rcases List.mem_cons.mp hmem with heq | htl
    · subst heq
      simp only [List.foldl_cons, bestStep]
      by_cases hdb : d ≤ b
      · simp only [hdb, if_pos]
        calc tl.foldl (bestStep target) (max d target)
            ≤ max (max d target) target := bestFold_le_max target tl _
          _ = max d target := by rw [max_assoc, max_self]
      · simp only [hdb, if_neg, not_false_iff]
        calc tl.foldl (bestStep target) b
            ≤ max b target := bestFold_le_max target tl b
          _ ≤ max d target := max_le_max (le_of_not_le hdb) (le_refl _)
    · exact le_trans (ih _ d htl) (le_refl _)

/-- **C1 counterexample.** With target distance `1.0` and a single compared
iteration at distance `0.5`, the committed best distance is `max 0.5 1 = 1`,
which is *not* `≤ 0.5`: the clamp `best_d ← max(d_i, D*)` (pik.cc line 265)
pushes `best_d` above an observed distance below the target. -/
theorem find_best_quantization_monotone_cex :
    ¬ (finalBest 1 [some (1/2)] ≤ 1/2) := by
  have h : finalBest 1 [some (1/2)] = 1 := by
    unfold finalBest
    simp only [List.foldl_cons, List.foldl_nil, bestStep]
    rw [if_pos (by norm_num)]
    exact max_eq_right (by norm_num)
  rw [h]; norm_num

/-- **C1 (amended).** At loop exit of `FindBestQuantization`, the retained best
distance satisfies `best_d ≤ max(d_i, D*)` for every visited iteration `i`
whose reconstruction was compared. -/
theorem find_best_quantization_clamped_monotone (target : ℚ) (ds : List (Option ℚ))
    (i : ℕ) (d : ℚ) (h : ds.get? i = some (some d)) :
    finalBest target ds ≤ max d target :=
  bestFold_mem target ds 1000 d (List.get?_mem h)

/-- Witness for `find_best_quantization_clamped_monotone` at the concrete run
with target `1` and one compared iteration of distance `1/2`. -/
theorem find_best_quantization_clamped_monotone_witness :
    finalBest 1 [some (1/2)] ≤ max (1/2) 1 :=
  find_best_quantization_clamped_monotone 1 [some (1/2)] 0 (1/2) rfl

/-! ### C7: table accesses in bounds -/

/-- **C7.** In `FindBestQuantization` the per-iteration reads `kPow[i]` and
`kMargins[i]` (loop counter `i < max_butteraugli_iters`) all stay in bounds —
equivalently the total embeddings never hit their out-of-range branch — if
and only if `max_butteraugli_iters ≤ 7`. -/
theorem kpow_kmargins_in_bounds (m : ℕ) :
    (∀ i < m, (kPowT i).isSome ∧ (kMarginsT i).isSome) ↔ m ≤ 7 := by
  constructor
  · intro h
    by_contra hm
    push_neg at hm
    have h7 := (h 7 (by omega)).1
    simp [kPowT, kPowVals] at h7
  · intro hm i hi
    have hi7 : i < kPowVals.length := by simp [kPowVals]; omega
    have hi100 : i < 100 := by omega
    constructor
    · simp [kPowT, hi7]
    · simp [kMarginsT, hi100]

/-! ### C4: decoded-header validation of the default bitstream (pik.cc 1072-1085) -/

/-- The decoded header fields that the default-bitstream validation in
`PikToPixelsT` inspects. -/
structure DecHeader where
  xsize : ℕ
  ysize : ℕ
  quantTemplate : ℕ
deriving DecidableEq, Repr

/-- `kMaxWidth = (1 << 25) - 1` (pik.cc line 1075). -/
def kMaxWidth : ℕ := 2 ^ 25 - 1

/-- The validation sequence `PikToPixelsT` applies to a decoded default-bitstream
header (pik.cc lines 1072-1085): reject a zero-area image, reject
`xsize > kMaxWidth` ("Image too wide"), reject `xsize * ysize > max_num_pixels`
("Image too big"), and reject `quant_template ≥ kNumQuantTables`
("Invalid quant table").  Returns `true` when all checks pass.
`kNumQuantTables` (declared in quantizer.h, outside the excerpted sources)
is kept as a parameter. -/
def checkDefaultHeader (h : DecHeader) (maxNumPixels : ℕ) (kNumQuantTables : ℕ) : Bool :=
  if h.xsize = 0 ∨ h.ysize = 0 then false
  else if kMaxWidth < h.xsize then false
  else if maxNumPixels < h.xsize * h.ysize then false
  else if kNumQuantTables ≤ h.quantTemplate then false
  else true

/-- **C4 counterexample.** A decoded header with `xsize = 1`,
`ysize = 2^25 > (1<<25)-1`, `quant_template = 0` passes the validation
(with `max_num_pixels = 2^26` and two known quant tables) even though the
claim demands failure whenever *either* dimension exceeds `(1<<25)-1`:
the code only tests `xsize` (pik.cc line 1076). -/
theorem check_default_header_cex :
    checkDefaultHeader ⟨1, 2 ^ 25, 0⟩ (2 ^ 26) 2 = true ∧ kMaxWidth < 2 ^ 25 := by
  constructor
  · decide
  · decide

/-- **C4 (amended).** The default-bitstream validation fails exactly when
`xsize = 0`, or `ysize = 0`, or `xsize` exceeds `(1<<25)-1` (the `ysize`
dimension is *not* tested against the width bound), or the pixel count
exceeds `max_num_pixels`, or the quant template is not a known table index. -/
theorem check_default_header_iff (h : DecHeader) (maxNumPixels kNumQuantTables : ℕ) :
    checkDefaultHeader h maxNumPixels kNumQuantTables = false ↔
      (h.xsize = 0 ∨ h.ysize = 0 ∨ kMaxWidth < h.xsize ∨
       maxNumPixels < h.xsize * h.ysize ∨ kNumQuantTables ≤ h.quantTemplate) := by
  unfold checkDefaultHeader
  split_ifs with h1 h2 h3 h4 <;> simp <;> first | tauto | (push_neg; omega)

/-! ### C5, C6: noise parameter gating and bitstream round trip (noise.cc) -/

/-- The three-parameter noise model `strength(x) = alpha * x^gamma + beta`
(noise.h / spec §3); the struct stores the components in the order
`(alpha, gamma, beta)`, which is also their order in the bitstream. -/
structure NoiseParams where
  alpha : ℚ
  gamma : ℚ
  beta : ℚ
deriving DecidableEq, Repr

/-- `GetSADThreshold` (noise.cc lines 99-106): the histogram mode divided by
`Histogram::kBins`. -/
def GetSADThreshold (mode kBins : ℕ) : ℚ := (mode : ℚ) / (kBins : ℚ)

/-- The noise-gating core of `GetNoiseParameter` (noise.cc lines 394-411):
if the SAD threshold is `> 0.15` or `≤ 0` all three parameters are zeroed;
otherwise the scaled-conjugate-gradient fit (an external collaborator,
modelled by the oracle `optimized`) is returned with `alpha` and `beta`
scaled by `quality_coef`. -/
def GetNoiseParameter (sadThreshold : ℚ) (optimized : NoiseParams)
    (qualityCoef : ℚ) : NoiseParams :=
  if sadThreshold > 3/20 ∨ sadThreshold ≤ 0 then ⟨0, 0, 0⟩
  else ⟨optimized.alpha * qualityCoef, optimized.gamma, optimized.beta * qualityCoef⟩

/-- Modelled from the spec: `WriteBits` (write_bits.h, outside the excerpted
sources) appends the `n` low bits of `value` to the stream, least-significant
bit first; multi-byte fields are little-endian (spec §6.1).  `bitsOfNat n v`
is that bit string. -/
def bitsOfNat : ℕ → ℕ → List Bool
  | 0, _ => []
  | n + 1, v => (v % 2 = 1) :: bitsOfNat n (v / 2)

/-- `WriteBits(n, value, storage_ix, storage)`: append `n` bits of `value` to
the accumulated stream. -/
def writeBits (n v : ℕ) (acc : List Bool) : List Bool := acc ++ bitsOfNat n v

/-- Modelled from the spec: a `BitReader` (bit_reader.h, outside the excerpted
sources) holding the not-yet-consumed bits and the number of bits consumed
so far (needed by `JumpToByteBoundary`). -/
structure BitReader where
  bits : List Bool
  pos : ℕ
deriving DecidableEq, Repr

/-- `BitReader::ReadBits(n)`: consume `n` bits, least-significant first.
Bits past the end of the stream read as zero. -/
def readBits : ℕ → BitReader → ℕ × BitReader
  | 0, br => (0, br)
  | n + 1, br =>
    match br.bits with
    | [] =>
      let r := readBits n ⟨[], br.pos + 1⟩
      (r.1 * 2, r.2)
    | b :: rest =>
      let r := readBits n ⟨rest, br.pos + 1⟩
      ((if b then 1 else 0) + r.1 * 2, r.2)

/-- `BitReader::JumpToByteBoundary`: skip forward to the next multiple of
8 bits. -/
def jumpToByteBoundary (br : BitReader) : BitReader :=
  let skip := (8 - br.pos % 8) % 8
  ⟨br.bits.drop skip, br.pos + skip⟩

/-- `kNoisePrecision = 1000.0f` (noise.cc line 413). -/
def kNoisePrecision : ℚ := 1000

/-- `EncodeFloatParam` (noise.cc lines 415-421): one sign bit
(`1` for `val ≥ 0`), then the 16-bit quantized magnitude
`(int)(|val| * precision + 0.5)`. -/
def EncodeFloatParam (val : ℚ) (acc : List Bool) : List Bool :=
  let acc1 := writeBits 1 (if 0 ≤ val then 1 else 0) acc
  writeBits 16 (Int.toNat ⌊|val| * kNoisePrecision + 1/2⌋) acc1

/-- `DecodeFloatParam` (noise.cc lines 423-427): read the sign bit and the
16-bit magnitude, return `sign * absval / precision`. -/
def DecodeFloatParam (br : BitReader) : ℚ × BitReader :=
  let s := readBits 1 br
  let a := readBits 16 s.2
  (((2 * (s.1 : ℤ) - 1 : ℤ) : ℚ) * (a.1 : ℚ) / kNoisePrecision, a.2)

/-- `EncodeNoise` (noise.cc lines 429-450) as a bit stream: a single
`have_noise` bit — set iff some parameter is nonzero — then, if set, the
three float params in the order alpha, gamma, beta, then zero padding to the
next byte boundary. -/
def EncodeNoise (p : NoiseParams) : List Bool :=
  let acc0 := writeBits 1 (if p.alpha ≠ 0 ∨ p.gamma ≠ 0 ∨ p.beta ≠ 0 then 1 else 0) []
  let acc1 := if p.alpha ≠ 0 ∨ p.gamma ≠ 0 ∨ p.beta ≠ 0 then
      EncodeFloatParam p.beta (EncodeFloatParam p.gamma (EncodeFloatParam p.alpha acc0))
    else acc0
  writeBits ((acc1.length + 7) / 8 * 8 - acc1.length) 0 acc1

/-- `DecodeNoise` (noise.cc lines 452-463): read `have_noise`; if set decode
alpha, gamma, beta, else zero them; finally jump to the byte boundary. -/
def DecodeNoise (br : BitReader) : NoiseParams × BitReader :=
  let h := readBits 1 br
  if h.1 = 1 then
    let a := DecodeFloatParam h.2
    let g := DecodeFloatParam a.2
    let b := DecodeFloatParam g.2
    (⟨a.1, g.1, b.1⟩, jumpToByteBoundary b.2)
  else
    (⟨0, 0, 0⟩, jumpToByteBoundary h.2)

/-- **C5.** If the SAD-histogram threshold computed by `GetSADThreshold` is
greater than `0.15` or not positive, `GetNoiseParameter` zeroes all three
noise parameters, and `EncodeNoise` of the zero parameters emits a single
`have_noise = 0` bit (padded to one zero byte). -/
theorem noise_gating (mode kBins : ℕ) (optimized : NoiseParams) (q : ℚ)
    (h : GetSADThreshold mode kBins > 3/20 ∨ GetSADThreshold mode kBins ≤ 0) :
    GetNoiseParameter (GetSADThreshold mode kBins) optimized q = ⟨0, 0, 0⟩ ∧
      EncodeNoise ⟨0, 0, 0⟩ = List.replicate 8 false := by
  constructor
  · unfold GetNoiseParameter
    rw [if_pos h]
  · decide

/-- Witness for `noise_gating`: histogram mode 1 over 2 bins gives threshold
`1/2 > 0.15`. -/
theorem noise_gating_witness :
    GetNoiseParameter (GetSADThreshold 1 2) ⟨1, 2, 3⟩ 1 = ⟨0, 0, 0⟩ ∧
      EncodeNoise ⟨0, 0, 0⟩ = List.replicate 8 false :=
  noise_gating 1 2 ⟨1, 2, 3⟩ 1 (Or.inl (by norm_num [GetSADThreshold]))

/-! ### C6: EncodeNoise / DecodeNoise round trip -/

theorem bitsOfNat_length (n v : ℕ) : (bitsOfNat n v).length = n := by
  induction n generalizing v with
  | zero => rfl
  | succ n ih => simp [bitsOfNat, ih]

theorem readBits_exact (n : ℕ) : ∀ (v : ℕ), v < 2 ^ n → ∀ (rest : List Bool) (p : ℕ),
    readBits n ⟨bitsOfNat n v ++ rest, p⟩ = (v, ⟨rest, p + n⟩) := by
  induction n with
  | zero =>
    intro v hv rest p
    interval_cases v
    rfl
  | succ n ih =>
    intro v hv rest p
    have hv2 : v / 2 < 2 ^ n := by omega
    simp only [bitsOfNat, List.cons_append, readBits]
    rw [ih (v / 2) hv2 rest (p + 1)]
    have hmod := Nat.mod_two_eq_zero_or_one v
    rcases hmod with hm | hm <;>
      simp [hm] <;> omega

/-- The parameter value `DecodeNoise` reconstructs for a transmitted value
`v`: `sign(v) * floor(|v| * 1000 + 0.5) / 1000`. -/
def decodedVal (v : ℚ) : ℚ :=
  (if 0 ≤ v then 1 else -1) * ((⌊|v| * kNoisePrecision + 1/2⌋ : ℤ) : ℚ) / kNoisePrecision

theorem encodeFloatParam_append (v : ℚ) (acc : List Bool) :
    EncodeFloatParam v acc = acc ++ EncodeFloatParam v [] := by
  simp [EncodeFloatParam, writeBits, List.append_assoc]

theorem encodeFloatParam_length (v : ℚ) : (EncodeFloatParam v []).length = 17 := by
  simp [EncodeFloatParam, writeBits, bitsOfNat_length]

theorem decodeFloat_of_encode (v : ℚ) (hv : |v| * 1000 + 1/2 < 2 ^ 16)
    (rest : List Bool) (p : ℕ) :
    DecodeFloatParam ⟨EncodeFloatParam v [] ++ rest, p⟩ = (decodedVal v, ⟨rest, p + 17⟩) := by
  have hq0 : (0 : ℤ) ≤ ⌊|v| * kNoisePrecision + 1/2⌋ := by
    apply Int.floor_nonneg.mpr
    have := abs_nonneg v
    rw [kNoisePrecision]
    nlinarith
  have hqlt : (⌊|v| * kNoisePrecision + 1/2⌋).toNat < 2 ^ 16 := by
    have h1 : (⌊|v| * kNoisePrecision + 1/2⌋ : ℚ) ≤ |v| * kNoisePrecision + 1/2 :=
      Int.floor_le _
    have h2 : (⌊|v| * kNoisePrecision + 1/2⌋ : ℚ) < 2 ^ 16 := by
      rw [kNoisePrecision] at h1 ⊢
      linarith
    have h3 : ⌊|v| * kNoisePrecision + 1/2⌋ < 2 ^ 16 := by exact_mod_cast h2
    omega
  have hslt : (if 0 ≤ v then 1 else 0) < 2 ^ 1 := by
    by_cases h0 : 0 ≤ v <;> simp [h0]
  have hcast : (((⌊|v| * kNoisePrecision + 1/2⌋).toNat : ℕ) : ℚ) =
      ((⌊|v| * kNoisePrecision + 1/2⌋ : ℤ) : ℚ) := by
    exact_mod_cast congrArg Int.cast (Int.toNat_of_nonneg hq0)
  unfold EncodeFloatParam DecodeFloatParam
  simp only [writeBits, List.nil_append, List.append_assoc]
  rw [readBits_exact 1 _ hslt]
  rw [readBits_exact 16 _ hqlt]
  rw [hcast]
  unfold decodedVal
  by_cases h0 : 0 ≤ v
  · rw [if_pos h0, if_pos h0]
    congr 1
  · rw [if_neg h0, if_neg h0]
    congr 1

/-- The zero parameter decodes to zero. -/
theorem decodedVal_zero : decodedVal 0 = 0 := by
  unfold decodedVal
  rw [kNoisePrecision]
  norm_num

/-- Each decoded parameter is within `0.0005` of the original. -/
theorem decodedVal_close (v : ℚ) : |decodedVal v - v| ≤ 1/2000 := by
  have h1 : ((⌊|v| * kNoisePrecision + 1/2⌋ : ℤ) : ℚ) ≤ |v| * kNoisePrecision + 1/2 :=
    Int.floor_le _
  have h2 : |v| * kNoisePrecision + 1/2 - 1 < ((⌊|v| * kNoisePrecision + 1/2⌋ : ℤ) : ℚ) :=
    Int.sub_one_lt_floor _
  rw [kNoisePrecision] at h1 h2
  unfold decodedVal
  rw [kNoisePrecision]
  by_cases h0 : 0 ≤ v
  · rw [abs_of_nonneg h0] at h1 h2 ⊢
    rw [if_pos h0, abs_le]
    constructor <;> [linarith; linarith]
  · push_neg at h0
    rw [abs_of_neg h0] at h1 h2 ⊢
    rw [if_neg (not_le.mpr h0), abs_le]
    constructor <;> [linarith; linarith]

theorem encodeNoise_of_ne (p : NoiseParams)
    (hne : p.alpha ≠ 0 ∨ p.gamma ≠ 0 ∨ p.beta ≠ 0) :
    EncodeNoise p = bitsOfNat 1 1 ++ (EncodeFloatParam p.alpha [] ++
      (EncodeFloatParam p.gamma [] ++ (EncodeFloatParam p.beta [] ++ bitsOfNat 4 0))) := by
  unfold EncodeNoise
  simp only [if_pos hne]
  rw [encodeFloatParam_append p.beta, encodeFloatParam_append p.gamma,
      encodeFloatParam_append p.alpha]
  have hlen : (((writeBits 1 1 [] ++ EncodeFloatParam p.alpha []) ++ EncodeFloatParam p.gamma [])
      ++ EncodeFloatParam p.beta []).length = 52 := by
    simp [encodeFloatParam_length, writeBits, bitsOfNat_length]
  rw [hlen]
  norm_num
  simp [writeBits, List.append_assoc]

theorem decodeNoise_of_encode (p : NoiseParams)
    (ha : |p.alpha| * 1000 + 1/2 < 2 ^ 16)
    (hg : |p.gamma| * 1000 + 1/2 < 2 ^ 16)
    (hb : |p.beta| * 1000 + 1/2 < 2 ^ 16)
    (hne : p.alpha ≠ 0 ∨ p.gamma ≠ 0 ∨ p.beta ≠ 0) :
    DecodeNoise ⟨EncodeNoise p, 0⟩ =
      (⟨decodedVal p.alpha, decodedVal p.gamma, decodedVal p.beta⟩, ⟨[], 56⟩) := by
  have h1 := readBits_exact 1 1 (by norm_num)
  have da := decodeFloat_of_encode p.alpha ha
  have dg := decodeFloat_of_encode p.gamma hg
  have db := decodeFloat_of_encode p.beta hb
  have hdrop : (bitsOfNat 4 0).drop 4 = [] := by
    apply List.drop_eq_nil_of_le
    simp [bitsOfNat_length]
  rw [DecodeNoise, encodeNoise_of_ne p hne]
  simp [h1, da, dg, db, jumpToByteBoundary, hdrop]

/-- **C6.** For every `NoiseParams` whose components `v` satisfy
`|v| * 1000 + 0.5 < 2^16`, decoding the bit stream produced by `EncodeNoise`
recovers each component as `sign(v) * floor(|v| * 1000 + 0.5) / 1000` — hence
within `0.0005` of the original — and leaves the bit reader byte-aligned. -/
theorem encode_decode_noise (p : NoiseParams)
    (ha : |p.alpha| * 1000 + 1/2 < 2 ^ 16)
    (hg : |p.gamma| * 1000 + 1/2 < 2 ^ 16)
    (hb : |p.beta| * 1000 + 1/2 < 2 ^ 16) :
    (DecodeNoise ⟨EncodeNoise p, 0⟩).1 =
      ⟨decodedVal p.alpha, decodedVal p.gamma, decodedVal p.beta⟩ ∧
    |decodedVal p.alpha - p.alpha| ≤ 1/2000 ∧
    |decodedVal p.gamma - p.gamma| ≤ 1/2000 ∧
    |decodedVal p.beta - p.beta| ≤ 1/2000 ∧
    (DecodeNoise ⟨EncodeNoise p, 0⟩).2.pos % 8 = 0 := by
  refine ⟨?_, decodedVal_close p.alpha, decodedVal_close p.gamma, decodedVal_close p.beta, ?_⟩
  · by_cases hne : p.alpha ≠ 0 ∨ p.gamma ≠ 0 ∨ p.beta ≠ 0
    · rw [decodeNoise_of_encode p ha hg hb hne]
    · push_neg at hne
      obtain ⟨h1, h2, h3⟩ := hne
      have hp : p = ⟨0, 0, 0⟩ := by
        cases p
        simp_all
      simp only [hp, decodedVal_zero]
      decide
  · by_cases hne : p.alpha ≠ 0 ∨ p.gamma ≠ 0 ∨ p.beta ≠ 0
    · rw [decodeNoise_of_encode p ha hg hb hne]
      simp
    · push_neg at hne
      obtain ⟨h1, h2, h3⟩ := hne
      have hp : p = ⟨0, 0, 0⟩ := by
        cases p
        simp_all
      rw [hp]
      decide

/-- Witness for `encode_decode_noise` at the concrete parameters
`(3/2000, -1/4, 0)`. -/
theorem encode_decode_noise_witness :
    (DecodeNoise ⟨EncodeNoise ⟨3/2000, -(1/4), 0⟩, 0⟩).1 =
      ⟨decodedVal (3/2000), decodedVal (-(1/4)), decodedVal 0⟩ ∧
    |decodedVal (3/2000) - 3/2000| ≤ 1/2000 ∧
    |decodedVal (-(1/4)) - -(1/4)| ≤ 1/2000 ∧
    |decodedVal 0 - 0| ≤ 1/2000 ∧
    (DecodeNoise ⟨EncodeNoise ⟨3/2000, -(1/4), 0⟩, 0⟩).2.pos % 8 = 0 :=
  encode_decode_noise ⟨3/2000, -(1/4), 0⟩
    (by rw [abs_of_nonneg (by norm_num : (0:ℚ) ≤ 3/2000)]; norm_num)
    (by rw [abs_neg, abs_of_nonneg (by norm_num : (0:ℚ) ≤ 1/4)]; norm_num)
    (by rw [abs_of_nonneg (le_refl (0:ℚ))]; norm_num)

/-! ### C2: FindBestYToBCorrelation (pik.cc 492-550) -/

/-- One non-DC DCT coefficient position as read by `FindBestYToBCorrelation`:
the Y-channel coefficient `row_y[x]`, the B-channel coefficient `row_b[x]`,
and the reciprocal dequant weight `qm[x % 64]`. -/
structure Coeff where
  yv : ℚ
  bv : ℚ
  qm : ℚ
deriving DecidableEq, Repr

/-- `kYToBScale = 128.0f`. -/
def kYToBScale : ℚ := 128

/-- `kZeroThresh = kYToBScale * 0.7f`. -/
def kZeroThreshYToB : ℚ := kYToBScale * (7/10)

/-- The per-candidate tally: the number of coefficients of the tile for which
`|kYToBScale * b * qm - ytob * (y * qm)| < kZeroThresh`. -/
def tileNumZeros (tile : List Coeff) (ytob : ℕ) : ℕ :=
  tile.countP fun c =>
    decide (|kYToBScale * c.bv * c.qm - (ytob : ℚ) * (c.yv * c.qm)| < kZeroThreshYToB)

/-- `IndexOfMaximum` (pik.cc 478-490): the first index of the maximal entry. -/
def IndexOfMaximum (f : ℕ → ℕ) (len : ℕ) : ℕ :=
  (List.range len).foldl (fun best i => if f best < f i then i else best) 0

/-- The global tally over the whole image (the DC pass of
`FindBestYToBCorrelation` walks every non-DC coefficient once; the tiles
partition them). -/
def globalNumZeros (img : List (List Coeff)) (ytob : ℕ) : ℕ :=
  (img.map fun t => tileNumZeros t ytob).sum

/-- `ytob_dc`: first index maximizing the global tally over candidates 0..255. -/
def ytobDC (img : List (List Coeff)) : ℕ := IndexOfMaximum (globalNumZeros img) 256

/-- The per-tile decision stored in `ytob_map`: the first index maximizing the
tile tally, reverted to the DC decision when it does not beat it by more
than 10 (`num_zeros[best_ytob] - num_zeros[*ytob_dc] <= 10`, an unsigned
subtraction whose minuend is maximal, hence never wrapping). -/
def tileBestYToB (img : List (List Coeff)) (tile : List Coeff) : ℕ :=
  let dc := ytobDC img
  let best := IndexOfMaximum (tileNumZeros tile) 256
  if tileNumZeros tile best - tileNumZeros tile dc ≤ 10 then dc else best

theorem IndexOfMaximum_succ (f : ℕ → ℕ) (n : ℕ) :
    IndexOfMaximum f (n + 1) =
      (if f (IndexOfMaximum f n) < f n then n else IndexOfMaximum f n) := by
  unfold IndexOfMaximum
  rw [List.range_succ, List.foldl_append]
  rfl

theorem IndexOfMaximum_lt (f : ℕ → ℕ) : ∀ len, 0 < len → IndexOfMaximum f len < len := by
  intro len
  induction len with
  | zero => omega
  | succ n ih =>
    intro _
    rw [IndexOfMaximum_succ]
    by_cases h : f (IndexOfMaximum f n) < f n
    · simp [h]
    · rw [if_neg h]
      cases Nat.eq_zero_or_pos n with
      | inl h0 =>
        subst h0
        unfold IndexOfMaximum
        simp
      | inr hpos => exact lt_trans (ih hpos) (by omega)

/-- `IndexOfMaximum` returns the first index attaining the maximum. -/
theorem IndexOfMaximum_spec (f : ℕ → ℕ) : ∀ (len : ℕ) (k : ℕ), k < len →
    (∀ i, i < len → f i ≤ f k) → (∀ i, i < k → f i < f k) →
    IndexOfMaximum f len = k := by
  intro len
  induction len with
  | zero => omega
  | succ n ih =>
    intro k hk hmax hfirst
    rw [IndexOfMaximum_succ]
    by_cases hkn : k < n
    · rw [ih k hkn (fun i hi => hmax i (by omega)) hfirst]
      rw [if_neg (not_lt.mpr (hmax n (by omega)))]
    · have hk2 : k = n := by omega
      subst hk2
      cases Nat.eq_zero_or_pos k with
      | inl h0 =>
        subst h0
        unfold IndexOfMaximum
        simp
      | inr hpos =>
        rw [if_pos (hfirst _ (IndexOfMaximum_lt f k hpos))]

theorem countP_replicate (p : Coeff → Bool) (a : Coeff) (n : ℕ) :
    (List.replicate n a).countP p = if p a then n else 0 := by
  induction n with
  | zero => simp
  | succ m ih =>
    rw [List.replicate_succ, List.countP_cons]
    by_cases hp : p a <;> simp [hp, ih]

/-- Every candidate counts on a tile whose `Y` and `B` coefficients vanish. -/
theorem tileNumZeros_zero_tile (j : ℕ) : tileNumZeros [⟨0, 0, 1⟩] j = 1 := by
  unfold tileNumZeros
  rw [List.countP_cons]
  norm_num [kYToBScale, kZeroThreshYToB]

/-- **C2 counterexample.** On the tile consisting of one coefficient with
`Y = B = 0`, the exact-correlation premise holds for `k = 5`
(`0 = 5 * 0 / 128`), yet the stored ytob is `0` (every candidate gets the same
count, `IndexOfMaximum` picks index 0, and the DC fallback also yields 0),
not `5`. -/
theorem ytob_exact_correlation_cex :
    (∀ c ∈ [(⟨0, 0, 1⟩ : Coeff)], c.bv = (5 : ℚ) * c.yv / 128) ∧
    tileBestYToB [[⟨0, 0, 1⟩]] [⟨0, 0, 1⟩] ≠ 5 := by
  have hglobal : ∀ j, globalNumZeros [[⟨0, 0, 1⟩]] j = 1 := by
    intro j
    unfold globalNumZeros
    simp [tileNumZeros_zero_tile j]
  have hdc : ytobDC [[⟨0, 0, 1⟩]] = 0 := by
    unfold ytobDC
    exact IndexOfMaximum_spec _ 256 0 (by omega)
      (fun i _ => by rw [hglobal, hglobal]) (fun i hi => by omega)
  have hbest : IndexOfMaximum (tileNumZeros [⟨0, 0, 1⟩]) 256 = 0 :=
    IndexOfMaximum_spec _ 256 0 (by omega)
      (fun i _ => by rw [tileNumZeros_zero_tile, tileNumZeros_zero_tile])
      (fun i hi => by omega)
  constructor
  · intro c hc
    simp only [List.mem_singleton] at hc
    subst hc
    norm_num
  · unfold tileBestYToB
    rw [hdc, hbest, if_pos (by simp [tileNumZeros_zero_tile])]
    omega

/-- **C2 (amended).** If on a tile every non-DC coefficient satisfies
`B = k * Y / 128` exactly for `k ∈ [0, 256)`, then `k` attains the maximal
per-tile zero count (every coefficient of the tile counts toward `k`); the
value stored in `ytob_map` equals `k` provided `k` is moreover the *first*
index attaining that maximum and its count exceeds the global DC decision's
count by more than 10 (otherwise the code's tie-breaking or DC fallback may
store a different candidate). -/
theorem ytob_exact_correlation (img : List (List Coeff)) (tile : List Coeff)
    (k : ℕ) (hk : k < 256)
    (hexact : ∀ c ∈ tile, c.bv = (k : ℚ) * c.yv / 128) :
    tileNumZeros tile k = tile.length ∧
    (IndexOfMaximum (tileNumZeros tile) 256 = k →
      tileNumZeros tile (ytobDC img) + 10 < tileNumZeros tile k →
      tileBestYToB img tile = k) := by
  constructor
  · rw [tileNumZeros, List.countP_eq_length]
    intro c hc
    rw [decide_eq_true_iff]
    rw [hexact c hc]
    have hz : kYToBScale * ((k : ℚ) * c.yv / 128) * c.qm - (k : ℚ) * (c.yv * c.qm) = 0 := by
      rw [kYToBScale]; ring
    rw [hz, abs_zero, kZeroThreshYToB, kYToBScale]
    norm_num
  · intro hbest hgap
    unfold tileBestYToB
    rw [hbest, if_neg (by omega)]

/-- The tally of the witness tile `Y = 128, B = 2`: only candidate 2 counts. -/
theorem tileNumZeros_w1 (j : ℕ) :
    tileNumZeros (List.replicate 11 ⟨128, 2, 1⟩) j = if j = 2 then 11 else 0 := by
  unfold tileNumZeros
  rw [countP_replicate]
  have hiff : (|kYToBScale * (2:ℚ) * 1 - (j:ℚ) * (128 * 1)| < kZeroThreshYToB) ↔ j = 2 := by
    rw [kZeroThreshYToB, kYToBScale]
    constructor
    · intro h
      by_contra hne
      have hcase : j ≤ 1 ∨ 3 ≤ j := by omega
      rcases hcase with hj | hj
      · have hjq : (j : ℚ) ≤ 1 := by exact_mod_cast hj
        rw [abs_of_nonneg (by nlinarith)] at h
        nlinarith
      · have hjq : (3 : ℚ) ≤ (j : ℚ) := by exact_mod_cast hj
        rw [abs_of_nonpos (by nlinarith)] at h
        nlinarith
    · rintro rfl
      norm_num
  by_cases hj : j = 2
  · subst hj
    rw [if_pos (by rw [decide_eq_true_iff]; exact hiff.mpr rfl), if_pos rfl]
  · rw [if_neg (by rw [decide_eq_true_iff]; exact fun hmem => hj (hiff.mp hmem)), if_neg hj]

/-- The tally of the witness tile `Y = 128, B = 0`: only candidate 0 counts. -/
theorem tileNumZeros_w2 (j : ℕ) :
    tileNumZeros (List.replicate 12 ⟨128, 0, 1⟩) j = if j = 0 then 12 else 0 := by
  unfold tileNumZeros
  rw [countP_replicate]
  have hiff : (|kYToBScale * (0:ℚ) * 1 - (j:ℚ) * (128 * 1)| < kZeroThreshYToB) ↔ j = 0 := by
    rw [kZeroThreshYToB, kYToBScale]
    constructor
    · intro h
      by_contra hne
      have hj : 1 ≤ j := by omega
      have hjq : (1 : ℚ) ≤ (j : ℚ) := by exact_mod_cast hj
      rw [abs_of_nonpos (by nlinarith)] at h
      nlinarith
    · rintro rfl
      norm_num
  by_cases hj : j = 0
  · subst hj
    rw [if_pos (by rw [decide_eq_true_iff]; exact hiff.mpr rfl), if_pos rfl]
  · rw [if_neg (by rw [decide_eq_true_iff]; exact fun hmem => hj (hiff.mp hmem)), if_neg hj]

/-- Witness for `ytob_exact_correlation`: a tile of 11 coefficients with
`Y = 128`, `B = 2` (so `k = 2`) next to a tile of 12 coefficients with
`B = 0` that pulls the DC decision to 0; the tile decision is `2`. -/
theorem ytob_exact_correlation_witness :
    tileNumZeros (List.replicate 11 ⟨128, 2, 1⟩) 2 =
      (List.replicate 11 (⟨128, 2, 1⟩ : Coeff)).length ∧
    tileBestYToB [List.replicate 11 ⟨128, 2, 1⟩, List.replicate 12 ⟨128, 0, 1⟩]
      (List.replicate 11 ⟨128, 2, 1⟩) = 2 := by
  have hexact : ∀ c ∈ List.replicate 11 (⟨128, 2, 1⟩ : Coeff),
      c.bv = (2 : ℚ) * c.yv / 128 := by
    intro c hc
    rw [List.eq_of_mem_replicate hc]
    norm_num
  have hglobal : ∀ j,
      globalNumZeros [List.replicate 11 ⟨128, 2, 1⟩, List.replicate 12 ⟨128, 0, 1⟩] j =
        (if j = 2 then 11 else 0) + (if j = 0 then 12 else 0) := by
    intro j
    unfold globalNumZeros
    simp only [List.map_cons, List.map_nil, List.sum_cons, List.sum_nil]
    rw [tileNumZeros_w1 j, tileNumZeros_w2 j]
    omega
  have hdc : ytobDC [List.replicate 11 ⟨128, 2, 1⟩, List.replicate 12 ⟨128, 0, 1⟩] = 0 := by
    unfold ytobDC
    refine IndexOfMaximum_spec _ 256 0 (by omega) (fun i _ => ?_) (fun i hi => by omega)
    rw [hglobal, hglobal]
    split_ifs <;> omega
  have hbest : IndexOfMaximum (tileNumZeros (List.replicate 11 ⟨128, 2, 1⟩)) 256 = 2 := by
    refine IndexOfMaximum_spec _ 256 2 (by omega) (fun i _ => ?_) (fun i hi => ?_)
    · rw [tileNumZeros_w1, tileNumZeros_w1]
      split_ifs <;> omega
    · rw [tileNumZeros_w1, tileNumZeros_w1, if_pos rfl, if_neg (by omega)]
      omega
  have h := ytob_exact_correlation
    [List.replicate 11 ⟨128, 2, 1⟩, List.replicate 12 ⟨128, 0, 1⟩]
    (List.replicate 11 ⟨128, 2, 1⟩) 2 (by norm_num) hexact
  refine ⟨h.1, h.2 hbest ?_⟩
  rw [hdc, tileNumZeros_w1, tileNumZeros_w1, if_pos rfl, if_neg (by omega)]
  omega

/-! ### C3: ScaleToTargetSize (pik.cc 627-682) -/

/-- Modelled from the spec: the quantizer state that `SetQuantField` stores —
a DC scalar and the per-block AC quant field (spec §3, §4.4).  quantizer.h/.cc
are not among the excerpted sources. -/
structure Quantizer where
  dc : ℚ
  acField : List ℚ
deriving DecidableEq, Repr

/-- Modelled from the spec: `Quantizer::SetQuantField` stores the DC scalar and
AC field and "returns whether anything changed" (spec §4.4). -/
def SetQuantField (qdc : ℚ) (qac : List ℚ) (q : Quantizer) : Bool × Quantizer :=
  if q.dc = qdc ∧ q.acField = qac then (false, ⟨qdc, qac⟩) else (true, ⟨qdc, qac⟩)

/-- Modelled from the spec: `Quantizer::GetQuantField` reads back the stored
DC scalar and AC field. -/
def GetQuantField (q : Quantizer) : ℚ × List ℚ := (q.dc, q.acField)

/-- `ScaleImage(scale, image)`: pointwise scaling. -/
def ScaleImage (s : ℚ) (img : List ℚ) : List ℚ := img.map (s * ·)

/-- `ScaleQuantizationMap` (pik.cc 612-625): `scale_dc = 0.8 * scale + 0.2`,
then `SetQuantField(scale_dc * quant_dc, ScaleImage(scale, quant_field_ac))`. -/
def ScaleQuantizationMap (qdc : ℚ) (qac : List ℚ) (scale : ℚ) (q : Quantizer) :
    Bool × Quantizer :=
  SetQuantField (((4/5) * scale + 1/5) * qdc) (ScaleImage scale qac) q

/-- The quantizer state installed by `ScaleQuantizationMap` at scale `s`. -/
def scaledStateOf (qdc : ℚ) (qac : List ℚ) (s : ℚ) : Quantizer :=
  ⟨((4/5) * s + 1/5) * qdc, ScaleImage s qac⟩

theorem sqm_snd (qdc : ℚ) (qac : List ℚ) (s : ℚ) (q : Quantizer) :
    (ScaleQuantizationMap qdc qac s q).2 = scaledStateOf qdc qac s := by
  unfold ScaleQuantizationMap SetQuantField scaledStateOf
  split_ifs <;> rfl

/-- The first (halving) loop of `ScaleToTargetSize` (pik.cc 643-656): try the
current `scale_good`, stop on success, otherwise set `scale_bad = scale_good`
and halve `scale_good`; at most `fuel` (= 10) attempts.  `encSize` is the
oracle for `EncodeToBitstream(ComputeCoefficients(...)).size()`. -/
def tryReduceLoop (encSize : Quantizer → ℕ) (target : ℕ) (qdc : ℚ) (qac : List ℚ) :
    ℕ → ℚ → ℚ → Quantizer → Bool × ℚ × ℚ × Quantizer
  | 0, scaleBad, scaleGood, q => (false, scaleBad, scaleGood, q)
  | n + 1, scaleBad, scaleGood, q =>
    let q1 := (ScaleQuantizationMap qdc qac scaleGood q).2
    if encSize q1 ≤ target then (true, scaleBad, scaleGood, q1)
    else tryReduceLoop encSize target qdc qac n scaleGood (scaleGood / 2) q1

/-- The 16-step bisection loop of `ScaleToTargetSize` (pik.cc 665-680),
breaking early when `ScaleQuantizationMap` reports no change. -/
def bisectLoop (encSize : Quantizer → ℕ) (target : ℕ) (qdc : ℚ) (qac : List ℚ) :
    ℕ → ℚ → ℚ → Quantizer → ℚ × Quantizer
  | 0, _, scaleGood, q => (scaleGood, q)
  | n + 1, scaleBad, scaleGood, q =>
    let scale := (scaleBad + scaleGood) / 2
    let r := ScaleQuantizationMap qdc qac scale q
    if r.1 = false then (scaleGood, r.2)
    else if encSize r.2 ≤ target then bisectLoop encSize target qdc qac n scaleBad scale r.2
    else bisectLoop encSize target qdc qac n scale scaleGood r.2

/-- `ScaleToTargetSize` (pik.cc 627-682): read the entry quant field, run up to
ten halving attempts, return on failure or if no shrinking was needed, else
bisect 16 times and install the best fitting scale. -/
def ScaleToTargetSize (q0 : Quantizer) (target : ℕ) (encSize : Quantizer → ℕ) :
    Quantizer :=
  let g := GetQuantField q0
  match tryReduceLoop encSize target g.1 g.2 10 1 1 q0 with
  | (false, _, _, q) => q
  | (true, sb, sg, q) =>
    if sg = 1 then q
    else
      let b := bisectLoop encSize target g.1 g.2 16 sb sg q
      (ScaleQuantizationMap g.1 g.2 b.1 b.2).2

theorem tryReduceLoop_fail (encSize : Quantizer → ℕ) (target : ℕ)
    (qdc : ℚ) (qac : List ℚ) :
    ∀ (n : ℕ) (sb sg : ℚ) (q : Quantizer),
      (∀ i ≤ n, target < encSize (scaledStateOf qdc qac (sg * (1/2)^i))) →
      ∃ sb2 sg2,
        tryReduceLoop encSize target qdc qac (n+1) sb sg q =
          (false, sb2, sg2, scaledStateOf qdc qac (sg * (1/2)^n)) := by
  intro n
  induction n with
  | zero =>
    intro sb sg q h
    have h0 := h 0 (le_refl 0)
    rw [pow_zero, mul_one] at h0
    refine ⟨sg, sg / 2, ?_⟩
    show (let q1 := (ScaleQuantizationMap qdc qac sg q).2
          if encSize q1 ≤ target then (true, sb, sg, q1)
          else tryReduceLoop encSize target qdc qac 0 sg (sg / 2) q1) =
        (false, sg, sg / 2, scaledStateOf qdc qac (sg * (1/2)^0))
    rw [pow_zero, mul_one]
    simp only [sqm_snd]
    rw [if_neg (by omega)]
    rfl
  | succ n ih =>
    intro sb sg q h
    have h0 := h 0 (by omega)
    rw [pow_zero, mul_one] at h0
    have hrec : ∀ i ≤ n, target < encSize (scaledStateOf qdc qac ((sg / 2) * (1/2)^i)) := by
      intro i hi
      have := h (i + 1) (by omega)
      have harg : sg * (1/2)^(i+1) = (sg / 2) * (1/2)^i := by
        rw [pow_succ]; ring
      rwa [harg] at this
    obtain ⟨sb2, sg2, heq⟩ := ih sg (sg / 2) ((ScaleQuantizationMap qdc qac sg q).2) hrec
    refine ⟨sb2, sg2, ?_⟩
    show (let q1 := (ScaleQuantizationMap qdc qac sg q).2
          if encSize q1 ≤ target then (true, sb, sg, q1)
          else tryReduceLoop encSize target qdc qac (n+1) sg (sg / 2) q1) =
        (false, sb2, sg2, scaledStateOf qdc qac (sg * (1/2)^(n+1)))
    simp only [sqm_snd]
    rw [if_neg (by omega)]
    rw [show scaledStateOf qdc qac sg = (ScaleQuantizationMap qdc qac sg q).2 from
        (sqm_snd qdc qac sg q).symm]
    rw [heq]
    have harg : (sg / 2) * (1/2)^n = sg * (1/2)^(n+1) := by
      rw [pow_succ]; ring
    rw [harg]

/-- **C3 counterexample.** With entry quantizer `(dc = 1, field = [1])`,
`target_size = 1`, and every candidate encoding of size 2, all ten halving
attempts fail, and `ScaleToTargetSize` returns with the quantizer holding the
last attempted state (entry scaled by `2^-9`), *not* the entry state: the
output is modified. -/
theorem scale_to_target_size_modifies_cex :
    ScaleToTargetSize ⟨1, [1]⟩ 1 (fun _ => 2) ≠ ⟨1, [1]⟩ := by
  have hfail2 : ∀ i ≤ 9,
      (1 : ℕ) < (fun _ : Quantizer => 2) (scaledStateOf 1 [1] ((1 : ℚ) * (1/2)^i)) := by
    intro i hi
    norm_num
  obtain ⟨sb2, sg2, heq⟩ := tryReduceLoop_fail (fun _ => 2) 1 1 [1] 9 1 1 ⟨1, [1]⟩ hfail2
  simp only [ScaleToTargetSize, GetQuantField]
  rw [show (10 : ℕ) = 9 + 1 by norm_num, heq]
  intro hcontra
  have hdc := congrArg Quantizer.dc hcontra
  simp only [scaledStateOf, one_mul] at hdc
  norm_num at hdc

/-- **C3 (amended).** If all ten halving attempts of `ScaleToTargetSize` fail
to reach `target_size`, the function returns with the quantizer holding the
state installed by the last (tenth) attempt — the entry AC field scaled by
`(1/2)^9` with DC scale `0.8 * (1/2)^9 + 0.2` — rather than the (unrestored)
entry state. -/
theorem scale_to_target_size_fail (q0 : Quantizer) (target : ℕ)
    (encSize : Quantizer → ℕ)
    (hfail : ∀ i ≤ 9, target < encSize (scaledStateOf q0.dc q0.acField ((1/2)^i))) :
    ScaleToTargetSize q0 target encSize =
      scaledStateOf q0.dc q0.acField ((1/2)^9) := by
  have hfail2 : ∀ i ≤ 9, target <
      encSize (scaledStateOf q0.dc q0.acField ((1 : ℚ) * (1/2)^i)) := by
    intro i hi
    rw [one_mul]
    exact hfail i hi
  obtain ⟨sb2, sg2, heq⟩ :=
    tryReduceLoop_fail encSize target q0.dc q0.acField 9 1 1 q0 hfail2
  simp only [ScaleToTargetSize, GetQuantField]
  rw [show (10 : ℕ) = 9 + 1 by norm_num, heq, one_mul]

/-- Witness for `scale_to_target_size_fail` at the concrete entry quantizer
`(1, [1])`, target 1, constant encoded size 2. -/
theorem scale_to_target_size_fail_witness :
    ScaleToTargetSize ⟨1, [1]⟩ 1 (fun _ => 2) =
      scaledStateOf (Quantizer.mk 1 [1]).dc (Quantizer.mk 1 [1]).acField ((1/2)^9) :=
  scale_to_target_size_fail ⟨1, [1]⟩ 1 (fun _ => 2) (fun i hi => by norm_num)

/-! ### C10: AddNoise with all-zero parameters (noise.cc 306-327) -/

/-- One opsin pixel (X, Y, B planes). -/
structure XybPixel where
  px : ℚ
  py : ℚ
  pb : ℚ
deriving DecidableEq, Repr

/-- The three Laplacian-filtered random values available to `AddNoiseT` at one
pixel (outputs of the three `RandomImage` planes, before the `0.22`
normalizer). -/
structure NoiseRnd where
  r : ℚ
  g : ℚ
  c : ℚ
deriving DecidableEq, Repr

/-- The read-only inputs of `AddNoiseT` beyond the image: the `kXybRange`
clamp bounds and `kXybCenter[1]` (declared in opsin_params.h, outside the
excerpted sources, hence parameters here) and the per-pixel random values. -/
structure NoiseEnv where
  rangeX : ℚ
  rangeY : ℚ
  rangeB : ℚ
  centerY : ℚ
  rnd : List NoiseRnd
deriving DecidableEq, Repr

/-- `clamp(v, lo, hi)`. -/
def clampQ (v lo hi : ℚ) : ℚ := min hi (max lo v)

/-- `NoiseStrength` (noise.cc 109-114): the strength evaluator clamped to
`[0, 1]`. -/
def noiseStrength (eval : ℚ → ℚ) (x : ℚ) : ℚ := min (max (eval x) 0) 1

/-- The per-pixel body of `AddNoiseT` / `AddNoiseToRGB`
(noise.cc 191-273): reconstruct the R/G intensities from X and Y, evaluate
clamped noise strengths, mix the `0.22`-normalized random values with
`kRGNCorr = 0.1` and `kRGCorr = 0.9`, add `0.9375` of the red+green noise to
B, and clamp every channel to `±kXybRange`. -/
def addNoisePixel (eval : ℚ → ℚ) (env : NoiseEnv) (p : XybPixel) (rn : NoiseRnd) :
    XybPixel :=
  let inG := (p.py - p.px) / 2
  let inR := (p.py + p.px) / 2
  let clampedG := clampQ inG (-env.rangeY) env.rangeY
  let clampedR := clampQ inR (-env.rangeY) env.rangeY
  let strengthG := noiseStrength eval (clampedG + env.centerY)
  let strengthR := noiseStrength eval (clampedR + env.centerY)
  let rndR := rn.r * (22/100)
  let rndG := rn.g * (22/100)
  let rndC := rn.c * (22/100)
  let redNoise := (1/10) * rndR * strengthR + (9/10) * rndC * strengthR
  let greenNoise := (1/10) * rndG * strengthG + (9/10) * rndC * strengthG
  ⟨clampQ (p.px + (redNoise - greenNoise)) (-env.rangeX) env.rangeX,
   clampQ (p.py + (redNoise + greenNoise)) (-env.rangeY) env.rangeY,
   clampQ (p.pb + (15/16) * (redNoise + greenNoise)) (-env.rangeB) env.rangeB⟩

/-- `AddNoiseT` (noise.cc 225-274): apply the per-pixel noise mix across the
image with its per-pixel random values. -/
def AddNoiseT (eval : ℚ → ℚ) (env : NoiseEnv) (img : List XybPixel) :
    List XybPixel :=
  List.zipWith (addNoisePixel eval env) img env.rnd

/-- `AddNoise` (noise.cc 306-327): if `alpha == 0` and `beta == 0` and
`gamma == 0`, return with the image untouched; if only `alpha == 0`, use the
constant (`StrengthEvalLinear`) evaluator `beta`; otherwise use the
poly/pow evaluator for `alpha * x^gamma + beta` (an irrational function,
supplied as the oracle `powEval`). -/
def AddNoise (powEval : ℚ → ℚ) (np : NoiseParams) (env : NoiseEnv)
    (img : List XybPixel) : List XybPixel :=
  if np.alpha = 0 then
    if np.beta = 0 ∧ np.gamma = 0 then img
    else AddNoiseT (fun _ => np.beta) env img
  else AddNoiseT powEval env img

/-- **C10.** If `alpha`, `beta` and `gamma` are all zero, `AddNoise` returns
with the opsin image completely unchanged. -/
theorem add_noise_zero_params (powEval : ℚ → ℚ) (np : NoiseParams)
    (env : NoiseEnv) (img : List XybPixel)
    (ha : np.alpha = 0) (hb : np.beta = 0) (hg : np.gamma = 0) :
    AddNoise powEval np env img = img := by
  unfold AddNoise
  rw [if_pos ha, if_pos ⟨hb, hg⟩]

/-- Witness for `add_noise_zero_params` on a concrete one-pixel image. -/
theorem add_noise_zero_params_witness :
    AddNoise (fun x => x) ⟨0, 0, 0⟩ ⟨1, 1, 1, 1/4, [⟨1, 1, 1⟩]⟩ [⟨1, 2, 3⟩] =
      [⟨1, 2, 3⟩] :=
  add_noise_zero_params (fun x => x) ⟨0, 0, 0⟩ ⟨1, 1, 1, 1/4, [⟨1, 1, 1⟩]⟩
    [⟨1, 2, 3⟩] rfl rfl rfl

/-! ### C8: termination of the CompressToTargetSize bracketing loop
(pik.cc 684-732) -/

/-- The three exit conditions of the distance-bracketing loop in
`CompressToTargetSize`: bracket gap below `0.05`; downward probe
`dist_good * 0.8` below `0.3`; upward probe `dist_bad * 1.25` above `32`. -/
inductive CttExit where
  | gapBelow
  | floorHit
  | ceilHit
deriving DecidableEq, Repr

/-- One iteration of the bracketing loop (pik.cc 699-729) on the state
`(dist_bad, dist_good)`, both initialized to `-1`: pick the probe distance and
exit condition, then run `FindBestQuantization` + `EncodeToBitstream` (the
oracle `fits k d`: iteration `k`'s candidate at distance `d` fits
`target_size`) and move the corresponding end of the bracket. -/
def cttStep (fits : ℕ → ℚ → Bool) (k : ℕ) (db dg : ℚ) : Sum CttExit (ℚ × ℚ) :=
  if 0 ≤ dg ∧ 0 ≤ db then
    if dg - db < 1/20 then Sum.inl CttExit.gapBelow
    else if fits k ((dg + db) / 2) then Sum.inr (db, (dg + db) / 2)
    else Sum.inr ((dg + db) / 2, dg)
  else if 0 ≤ dg then
    if dg * (4/5) < 3/10 then Sum.inl CttExit.floorHit
    else if fits k (dg * (4/5)) then Sum.inr (db, dg * (4/5))
    else Sum.inr (dg * (4/5), dg)
  else if 0 ≤ db then
    if 32 < db * (5/4) then Sum.inl CttExit.ceilHit
    else if fits k (db * (5/4)) then Sum.inr (db, db * (5/4))
    else Sum.inr (db * (5/4), dg)
  else if fits k 1 then Sum.inr (db, 1)
  else Sum.inr (1, dg)

/-- The bracketing loop with an iteration budget `fuel`: `some e` when the
loop exits via condition `e` within `fuel` iterations, `none` otherwise. -/
def cttRun (fits : ℕ → ℚ → Bool) : ℕ → ℕ → ℚ → ℚ → Option CttExit
  | 0, _, _, _ => none
  | n + 1, k, db, dg =>
    match cttStep fits k db dg with
    | Sum.inl e => some e
    | Sum.inr s => cttRun fits n (k + 1) s.1 s.2

theorem cttRun_succ (fits : ℕ → ℚ → Bool) (n k : ℕ) (db dg : ℚ) :
    cttRun fits (n + 1) k db dg =
      (match cttStep fits k db dg with
       | Sum.inl e => some e
       | Sum.inr s => cttRun fits n (k + 1) s.1 s.2) := rfl

theorem cttRun_mono (fits : ℕ → ℚ → Bool) :
    ∀ (n m k : ℕ) (db dg : ℚ) (e : CttExit), n ≤ m →
      cttRun fits n k db dg = some e → cttRun fits m k db dg = some e := by
  intro n
  induction n with
  | zero =>
    intro m k db dg e _ h
    simp [cttRun] at h
  | succ n ih =>
    intro m k db dg e hnm h
    obtain ⟨m1, rfl⟩ : ∃ m1, m = m1 + 1 := ⟨m - 1, by omega⟩
    rw [cttRun_succ] at h ⊢
    cases hstep : cttStep fits k db dg with
    | inl e2 =>
      rw [hstep] at h
      exact h
    | inr s =>
      rw [hstep] at h
      exact ih m1 (k + 1) s.1 s.2 e (by omega) h

/-- Once both bracket ends are set, the bisection halves the gap exactly,
so with gap below `(1/20) * 2^n` the loop exits within `n + 1` iterations. -/
theorem ctt_two_sided (fits : ℕ → ℚ → Bool) :
    ∀ (n k : ℕ) (db dg : ℚ), 0 ≤ db → 0 ≤ dg → dg - db < (1/20) * 2 ^ n →
      ∃ e, cttRun fits (n + 1) k db dg = some e := by
  intro n
  induction n with
  | zero =>
    intro k db dg hdb hdg hgap
    rw [pow_zero, mul_one] at hgap
    refine ⟨CttExit.gapBelow, ?_⟩
    rw [cttRun_succ]
    unfold cttStep
    rw [if_pos ⟨hdg, hdb⟩, if_pos hgap]
  | succ n ih =>
    intro k db dg hdb hdg hgap
    by_cases hg : dg - db < 1/20
    · refine ⟨CttExit.gapBelow, ?_⟩
      rw [cttRun_succ]
      unfold cttStep
      rw [if_pos ⟨hdg, hdb⟩, if_pos hg]
    · push_neg at hg
      have h2p : (0:ℚ) < 2 ^ n := by positivity
      have hd0 : 0 ≤ (dg + db) / 2 := by linarith
      rw [pow_succ] at hgap
      cases hfit : fits k ((dg + db) / 2) with
      | true =>
        obtain ⟨e, he⟩ := ih (k + 1) db ((dg + db) / 2) hdb hd0 (by linarith)
        refine ⟨e, ?_⟩
        rw [cttRun_succ]
        unfold cttStep
        rw [if_pos ⟨hdg, hdb⟩, if_neg (not_lt.mpr hg), if_pos hfit]
        exact he
      | false =>
        obtain ⟨e, he⟩ := ih (k + 1) ((dg + db) / 2) dg hd0 hdg (by linarith)
        refine ⟨e, ?_⟩
        rw [cttRun_succ]
        unfold cttStep
        rw [if_pos ⟨hdg, hdb⟩, if_neg (not_lt.mpr hg), if_neg (by simp [hfit])]
        exact he

/-- In the good-only phase (`dist_bad` still `-1`), `dist_good` shrinks
geometrically; from `dist_good < (3/10) * (5/4)^n` the loop exits within
`2n + 3` iterations. -/
theorem ctt_good_only (fits : ℕ → ℚ → Bool) :
    ∀ (n k : ℕ) (db dg : ℚ), db < 0 → 0 < dg → dg < (3/10) * (5/4) ^ n →
      ∃ e, cttRun fits (2 * n + 3) k db dg = some e := by
  intro n
  induction n with
  | zero =>
    intro k db dg hdb hdg hlt
    rw [pow_zero, mul_one] at hlt
    refine ⟨CttExit.floorHit, ?_⟩
    rw [show 2 * 0 + 3 = 2 + 1 by omega, cttRun_succ]
    unfold cttStep
    rw [if_neg (by rintro ⟨-, h⟩; linarith), if_pos hdg.le, if_pos (by nlinarith)]
  | succ n ih =>
    intro k db dg hdb hdg hlt
    have hc1 : ¬(0 ≤ dg ∧ 0 ≤ db) := by rintro ⟨-, h⟩; linarith
    by_cases hexit : dg * (4/5) < 3/10
    · refine ⟨CttExit.floorHit, ?_⟩
      rw [show 2 * (n + 1) + 3 = (2 * (n + 1) + 2) + 1 by omega, cttRun_succ]
      unfold cttStep
      rw [if_neg hc1, if_pos hdg.le, if_pos hexit]
    · push_neg at hexit
      cases hfit : fits k (dg * (4/5)) with
      | true =>
        have hdg2 : 0 < dg * (4/5) := by linarith
        have hlt2 : dg * (4/5) < (3/10) * (5/4) ^ n := by
          rw [pow_succ] at hlt
          have hp : (0:ℚ) < (5/4) ^ n := by positivity
          nlinarith
        obtain ⟨e, he⟩ := ih (k + 1) db (dg * (4/5)) hdb hdg2 hlt2
        refine ⟨e, ?_⟩
        rw [show 2 * (n + 1) + 3 = (2 * n + 4) + 1 by omega, cttRun_succ]
        unfold cttStep
        rw [if_neg hc1, if_pos hdg.le, if_neg (not_lt.mpr hexit), if_pos hfit]
        exact cttRun_mono fits (2 * n + 3) (2 * n + 4) (k + 1) db (dg * (4/5)) e
          (by omega) he
      | false =>
        have hgap : dg - dg * (4/5) < (1/20) * 2 ^ (n + 1) := by
          have hmul : ((5:ℚ)/4) ^ (n + 1) = 2 ^ (n + 1) * ((5:ℚ)/8) ^ (n + 1) := by
            rw [← mul_pow]
            norm_num
          have h2p : (0:ℚ) < 2 ^ (n + 1) := by positivity
          have h58 : ((5:ℚ)/8) ^ (n + 1) ≤ 5/8 := by
            calc ((5:ℚ)/8) ^ (n + 1) ≤ ((5:ℚ)/8) ^ 1 :=
                  pow_le_pow_of_le_one (by norm_num) (by norm_num) (by omega)
              _ = 5/8 := pow_one _
          rw [hmul] at hlt
          have hb : (3/10 : ℚ) * (2 ^ (n+1) * ((5:ℚ)/8) ^ (n+1)) ≤
              (3/10) * (2 ^ (n+1) * (5/8)) := by
            apply mul_le_mul_of_nonneg_left _ (by norm_num)
            exact mul_le_mul_of_nonneg_left h58 (le_of_lt h2p)
          linarith
        obtain ⟨e, he⟩ := ctt_two_sided fits (n + 1) (k + 1) (dg * (4/5)) dg
          (by linarith) hdg.le hgap
        refine ⟨e, ?_⟩
        rw [show 2 * (n + 1) + 3 = (2 * n + 4) + 1 by omega, cttRun_succ]
        unfold cttStep
        rw [if_neg hc1, if_pos hdg.le, if_neg (not_lt.mpr hexit),
            if_neg (by simp [hfit])]
        exact cttRun_mono fits (n + 2) (2 * n + 4) (k + 1) (dg * (4/5)) dg e
          (by omega) he

/-- In the bad-only phase (`dist_good` still `-1`), `dist_bad` grows
geometrically; from `32 < dist_bad * (5/4)^n` the loop exits within
`n + 10` iterations. -/
theorem ctt_bad_only (fits : ℕ → ℚ → Bool) :
    ∀ (n k : ℕ) (db dg : ℚ), 0 < db → dg < 0 → 32 < db * (5/4) ^ n →
      ∃ e, cttRun fits (n + 10) k db dg = some e := by
  intro n
  induction n with
  | zero =>
    intro k db dg hdb hdg h32
    rw [pow_zero, mul_one] at h32
    refine ⟨CttExit.ceilHit, ?_⟩
    rw [show (0:ℕ) + 10 = 9 + 1 by omega, cttRun_succ]
    unfold cttStep
    rw [if_neg (by rintro ⟨h, -⟩; linarith), if_neg (not_le.mpr hdg),
        if_pos hdb.le, if_pos (by nlinarith)]
  | succ n ih =>
    intro k db dg hdb hdg h32
    have hc1 : ¬(0 ≤ dg ∧ 0 ≤ db) := by rintro ⟨h, -⟩; linarith
    by_cases hexit : 32 < db * (5/4)
    · refine ⟨CttExit.ceilHit, ?_⟩
      rw [show (n + 1) + 10 = (n + 10) + 1 by omega, cttRun_succ]
      unfold cttStep
      rw [if_neg hc1, if_neg (not_le.mpr hdg), if_pos hdb.le, if_pos hexit]
    · push_neg at hexit
      cases hfit : fits k (db * (5/4)) with
      | false =>
        have h32b : 32 < (db * (5/4)) * (5/4) ^ n := by
          have harg : db * (5/4) ^ (n + 1) = (db * (5/4)) * (5/4) ^ n := by
            rw [pow_succ]; ring
          rwa [harg] at h32
        obtain ⟨e, he⟩ := ih (k + 1) (db * (5/4)) dg (by positivity) hdg h32b
        refine ⟨e, ?_⟩
        rw [show (n + 1) + 10 = (n + 10) + 1 by omega, cttRun_succ]
        unfold cttStep
        rw [if_neg hc1, if_neg (not_le.mpr hdg), if_pos hdb.le,
            if_neg (not_lt.mpr hexit), if_neg (by simp [hfit])]
        exact he
      | true =>
        have hgap : db * (5/4) - db < (1/20) * 2 ^ 8 := by
          have h256 : ((1:ℚ)/20) * 2 ^ 8 = 64/5 := by norm_num
          rw [h256]
          linarith
        obtain ⟨e, he⟩ := ctt_two_sided fits 8 (k + 1) db (db * (5/4)) hdb.le
          (by positivity) hgap
        refine ⟨e, ?_⟩
        rw [show (n + 1) + 10 = (n + 10) + 1 by omega, cttRun_succ]
        unfold cttStep
        rw [if_neg hc1, if_neg (not_le.mpr hdg), if_pos hdb.le,
            if_neg (not_lt.mpr hexit), if_pos hfit]
        exact cttRun_mono fits 9 (n + 10) (k + 1) db (db * (5/4)) e (by omega) he

/-- **C8.** For every encoder/size oracle, the distance-bracketing loop of
`CompressToTargetSize`, started from `dist_bad = dist_good = -1`, terminates
(within 27 iterations), and it can only exit via its three stated conditions:
gap below `0.05`, downward probe below `0.3`, or upward probe above `32`. -/
theorem compress_to_target_terminates (fits : ℕ → ℚ → Bool) :
    ∃ e, cttRun fits 27 0 (-1) (-1) = some e ∧
      (e = CttExit.gapBelow ∨ e = CttExit.floorHit ∨ e = CttExit.ceilHit) := by
  have hstep : cttStep fits 0 (-1) (-1) =
      (if fits 0 1 then Sum.inr (-1, 1) else Sum.inr (1, -1)) := by
    unfold cttStep
    rw [if_neg (by rintro ⟨h, -⟩; linarith), if_neg (by norm_num),
        if_neg (by norm_num)]
  rw [show (27:ℕ) = 26 + 1 by norm_num, cttRun_succ, hstep]
  cases hfit : fits 0 1 with
  | true =>
    rw [if_pos rfl]
    obtain ⟨e, he⟩ := ctt_good_only fits 6 1 (-1) 1 (by norm_num) (by norm_num)
      (by norm_num)
    exact ⟨e, cttRun_mono fits 15 26 1 (-1) 1 e (by omega) he,
      by cases e <;> simp⟩
  | false =>
    rw [if_neg Bool.false_ne_true]
    obtain ⟨e, he⟩ := ctt_bad_only fits 16 1 1 (-1) (by norm_num) (by norm_num)
      (by norm_num)
    exact ⟨e, he, by cases e <;> simp⟩

end PikSpec
